import Mathlib

/-!
Verification of the custom ETL task-graph notebook.

The notebook defines six task functions (`load`, `load_from_sql`, `process`,
`roll`, `compare`, `reduction`), wraps each one with a deferred-call wrapper,
and then uses plain loops and comprehensions to build a dependency graph:
ten loader nodes, one reference loader, ten process nodes, a sliding window
of eight roll nodes, twenty randomly sampled compare nodes, and one terminal
reduction node.  The graph is finally submitted to an external scheduler.

We embed the six task bodies and the graph-building cell from the source.
The deferred wrapper, the scheduler contract (valid execution orders), and
failure propagation are not part of the repository's own code; they are
modelled from the specification, as noted on each such definition.
-/

namespace CustomEtl

/-- Task body from the source: `load` sleeps for a random time and falls
through (`pass`), so it returns `None` for every address.  The sleep has no
effect on values and is not modelled. -/
def load (address : String) : Option String := none

/-- Task body from the source: `load_from_sql` sleeps and returns `None`. -/
def load_from_sql (address : String) : Option String := none

/-- Task body from the source: `process` sleeps and returns `None`. -/
def process (data reference : Option String) : Option String := none

/-- Task body from the source: `roll` sleeps and returns `None`. -/
def roll (a b c : Option String) : Option String := none

/-- Task body from the source: `compare` sleeps and returns `None`. -/
def compare (a b : Option String) : Option String := none

/-- Task body from the source: `reduction` sleeps and returns `None`. -/
def reduction (seq : List (Option String)) : Option String := none

/-- A task node of the dependency graph: the name of the deferred function and
the list of graph indices of the deferred values it consumes.  Node identity
is the node's position in the graph list. -/
structure Node where
  label : String
  deps : List Nat
deriving DecidableEq

/-- An argument passed to a deferred call: a concrete value, a deferred value
(identified by the index of its producing node), or an ordinary container of
further arguments. -/
inductive Arg where
  | str : String → Arg
  | ref : Nat → Arg
  | coll : List Arg → Arg

mutual

/-- The deferred values occurring in one argument, in order, recursively
through containers. -/
def depsOf : Arg → List Nat
  | .str _ => []
  | .ref i => [i]
  | .coll l => depsOfList l

/-- The deferred values occurring in an argument list. -/
def depsOfList : List Arg → List Nat
  | [] => []
  | a :: l => depsOf a ++ depsOfList l

end

/-- Declarative reading of the specification: deferred value `x` occurs among
an argument, recursively including inside ordinary containers. -/
inductive OccursIn : Nat → Arg → Prop where
  | here (i : Nat) : OccursIn i (.ref i)
  | inColl {x : Nat} {a : Arg} {l : List Arg} : a ∈ l → OccursIn x a → OccursIn x (.coll l)

/-- Modelled from the spec: the deferred task wrapper (the external library's
`delayed`).  Calling the wrapped function executes nothing; it appends one new
node recording the function's name and the deferred values found among the
arguments, and returns the index of that node as the new deferred value. -/
def delayedCall (label : String) (args : List Arg) (g : List Node) : List Node × Nat :=
  (g ++ [Node.mk label (depsOfList args)], g.length)

/-- The node stored at index `i` of a graph (a node with no dependencies and
an empty name when `i` is out of range). -/
def nodeAt : List Node → Nat → Node
  | [], _ => Node.mk "" []
  | n :: _, 0 => n
  | _ :: l, i + 1 => nodeAt l i

/-- The filenames of the ten independent datasets, as in the notebook. -/
def filenames : List String := (List.range 10).map (fun i => "mydata-" ++ toString i ++ ".dat")

/-- One deferred call of the wrapped function `label` per element of `l`,
collecting the resulting deferred values in order: the shape of the
notebook's comprehensions and accumulation loops. -/
def buildMany {α : Type} (label : String) (argf : α → List Arg) :
    List α → List Node → List Node × List Nat
  | [], g => (g, [])
  | x :: xs, g =>
    let r := delayedCall label (argf x) g
    let rest := buildMany label argf xs r.1
    (rest.1, r.2 :: rest.2)

/-- Notebook line `data = [load(fn) for fn in filenames]`, starting from the
empty graph. -/
def dataStage : List Node × List Nat :=
  buildMany "load" (fun fn => [Arg.str fn]) filenames []

/-- Notebook line `reference = load_from_sql('sql://mytable')`. -/
def referenceStage : List Node × Nat :=
  delayedCall "load_from_sql" [Arg.str "sql://mytable"] dataStage.1

/-- Notebook line `processed = [process(d, reference) for d in data]`. -/
def processedStage : List Node × List Nat :=
  buildMany "process" (fun d => [Arg.ref d, Arg.ref referenceStage.2])
    dataStage.2 referenceStage.1

/-- Notebook loop `for i in range(len(processed) - 2): r = roll(processed[i],
processed[i+1], processed[i+2]); rolled.append(r)`. -/
def rolledStage : List Node × List Nat :=
  buildMany "roll"
    (fun i => [Arg.ref (processedStage.2.getD i 0),
               Arg.ref (processedStage.2.getD (i + 1) 0),
               Arg.ref (processedStage.2.getD (i + 2) 0)])
    (List.range (processedStage.2.length - 2)) processedStage.1

/-- Notebook loop `for i in range(20): c = compare(random.choice(rolled),
random.choice(rolled)); compared.append(c)`.  The `random.choice(rolled)`
sampling is parameterised by `pick`: for each of the twenty iterations it
yields the two chosen positions in the eight-element `rolled` list. -/
def comparedStage (pick : Nat → Fin 8 × Fin 8) : List Node × List Nat :=
  buildMany "compare"
    (fun i => [Arg.ref (rolledStage.2.getD ((pick i).1 : Nat) 0),
               Arg.ref (rolledStage.2.getD ((pick i).2 : Nat) 0)])
    (List.range 20) rolledStage.1

/-- Notebook line `best = reduction(compared)`: the final graph together with
the index of the terminal `reduction` node. -/
def buildETL (pick : Nat → Fin 8 × Fin 8) : List Node × Nat :=
  delayedCall "reduction" [Arg.coll ((comparedStage pick).2.map Arg.ref)]
    (comparedStage pick).1

/-- The dependency graph built by the notebook. -/
def etlGraph (pick : Nat → Fin 8 × Fin 8) : List Node := (buildETL pick).1

/-- The index of the terminal `reduction` node. -/
def bestId (pick : Nat → Fin 8 × Fin 8) : Nat := (buildETL pick).2

/-- The first 29 nodes of the notebook graph: ten loaders, the reference
loader, ten process nodes, and eight roll nodes. -/
def front29 : List Node :=
  (List.range 10).map (fun _ => Node.mk "load" [])
  ++ [Node.mk "load_from_sql" []]
  ++ (List.range 10).map (fun i => Node.mk "process" [i, 10])
  ++ (List.range 8).map (fun i => Node.mk "roll" [11 + i, 12 + i, 13 + i])

/-- The indices of the eight roll nodes. -/
def rollIds : List Nat := [21, 22, 23, 24, 25, 26, 27, 28]

/-- The twenty compare nodes, as functions of the sampled pairs. -/
def compareNodesG (pick : Nat → Fin 8 × Fin 8) : List Node :=
  (List.range 20).map (fun k =>
    Node.mk "compare"
      [List.getD rollIds ((pick k).1 : Nat) 0, List.getD rollIds ((pick k).2 : Nat) 0])

/-- The terminal reduction node, depending on all twenty compare nodes. -/
def reductionNode : Node := Node.mk "reduction" ((List.range 20).map (fun k => 29 + k))

/-- A graph is well formed when every dependency points to an earlier node. -/
def wellFormed (g : List Node) : Prop :=
  ∀ i, ∀ d ∈ (nodeAt g i).deps, d < i

/-- Bounded-depth dependency search: does node `i` reach node `j` through one
or more dependency edges, within `fuel` steps? -/
def reachesFuel (g : List Node) : Nat → Nat → Nat → Bool
  | 0, _, _ => false
  | fuel + 1, i, j => (nodeAt g i).deps.any (fun d => d == j || reachesFuel g fuel d j)

/-- Node `i` transitively depends on node `j`.  A fuel of `g.length` suffices
on well-formed graphs, where dependency indices strictly decrease. -/
def reaches (g : List Node) (i j : Nat) : Bool := reachesFuel g g.length i j

/-- Modelled from the spec: one submission of the graph to the external
scheduler is an execution order.  `depsDone g done ord` checks that running
the nodes of `ord` in sequence, after the nodes of `done` have already run,
only ever starts a node whose dependencies have all produced results. -/
def depsDone (g : List Node) : List Nat → List Nat → Bool
  | _, [] => true
  | done, i :: rest =>
    decide (∀ d ∈ (nodeAt g i).deps, d ∈ done) && depsDone g (i :: done) rest

/-- Modelled from the spec: a valid execution order for one graph submission
executes every node exactly once, only refers to nodes of the graph, and
starts each node only after all of its dependencies have produced results. -/
def ValidSchedule (g : List Node) (ord : List Nat) : Prop :=
  (∀ i ∈ List.range g.length, ord.count i = 1) ∧
  (∀ i ∈ ord, i < g.length) ∧
  depsDone g [] ord = true

instance (g : List Node) (ord : List Nat) : Decidable (ValidSchedule g ord) := by
  unfold ValidSchedule
  exact inferInstance

/-- The position of the first occurrence of `a` in a list (the list's length
when `a` is absent). -/
def posOf (a : Nat) : List Nat → Nat
  | [] => 0
  | x :: l => if x = a then 0 else posOf a l + 1

/-- The nodes that node `b` transitively depends on, together with `b`
itself. -/
def downClosure (g : List Node) (b : Nat) (j : Nat) : Bool :=
  j == b || reaches g b j

/-- A schedule that runs everything `b` needs (and `b`) first, in index
order, and the remaining nodes afterwards, in index order. -/
def sepSchedule (g : List Node) (b : Nat) : List Nat :=
  (List.range g.length).filter (downClosure g b)
  ++ (List.range g.length).filter (fun j => !downClosure g b j)

/-- Modelled from the spec: if the task of node `f` raises error `e` during
execution, awaiting the deferred value of node `i` surfaces that originating
error exactly when `i` is `f` or transitively depends on `f`; every other node
still completes. -/
def awaitAfterFailure (g : List Node) (f : Nat) (e : String) (i : Nat) : Except String Unit :=
  if i = f ∨ reaches g i f = true then Except.error e else Except.ok ()

/-- Dispatch a node's stored function name to the task bodies embedded from
the source.  Loader addresses are concrete arguments, not dependency values;
since `load` and `load_from_sql` ignore their address, it is passed as an
arbitrary fixed string here. -/
def applyTask (label : String) (vals : List (Option String)) : Option String :=
  match label with
  | "load" => load ""
  | "load_from_sql" => load_from_sql ""
  | "process" => process (vals.getD 0 none) (vals.getD 1 none)
  | "roll" => roll (vals.getD 0 none) (vals.getD 1 none) (vals.getD 2 none)
  | "compare" => compare (vals.getD 0 none) (vals.getD 1 none)
  | "reduction" => reduction vals
  | _ => none

mutual

/-- Modelled from the spec: the executor resolves a deferred value by first
resolving all dependency values and then running the node's task body.
Returns `none` when the fuel bound is exhausted. -/
def evalFuel (g : List Node) : Nat → Nat → Option (Option String)
  | 0, _ => none
  | fuel + 1, i =>
    match evalArgs g fuel (nodeAt g i).deps with
    | none => none
    | some vals => some (applyTask (nodeAt g i).label vals)
termination_by fuel i => (fuel, 0)

/-- Resolve a list of dependency values. -/
def evalArgs (g : List Node) : Nat → List Nat → Option (List (Option String))
  | _, [] => some []
  | fuel, d :: ds =>
    match evalFuel g fuel d, evalArgs g fuel ds with
    | some v, some vs => some (v :: vs)
    | _, _ => none
termination_by fuel l => (fuel, l.length + 1)

end

/-- The value of the deferred node `i`: on a well-formed graph a fuel of
`i + 1` always suffices, since dependency indices strictly decrease. -/
def evalValue (g : List Node) (i : Nat) : Option (Option String) := evalFuel g (i + 1) i

/-- A fixed sampling policy: every compare iteration picks the first roll
node twice. -/
def constPick : Nat → Fin 8 × Fin 8 := fun _ => (0, 0)

/-! ### Basic structure of the built graph -/

theorem depsOf_str (s : String) : depsOf (Arg.str s) = [] := rfl

theorem depsOf_ref (i : Nat) : depsOf (Arg.ref i) = [i] := rfl

theorem depsOf_coll (l : List Arg) : depsOf (Arg.coll l) = depsOfList l := rfl

theorem depsOfList_nil : depsOfList [] = [] := rfl

theorem depsOfList_cons (a : Arg) (l : List Arg) :
    depsOfList (a :: l) = depsOf a ++ depsOfList l := rfl

theorem depsOfList_map_ref (l : List Nat) : depsOfList (l.map Arg.ref) = l := by
  induction l with
  | nil => rfl
  | cons x xs ih => simp [depsOfList_cons, depsOf_ref, ih]

theorem buildMany_fst {α : Type} (label : String) (argf : α → List Arg) (l : List α) :
    ∀ g, (buildMany label argf l g).1
      = g ++ l.map (fun x => Node.mk label (depsOfList (argf x))) := by
  induction l with
  | nil => intro g; simp [buildMany]
  | cons x xs ih => intro g; simp [buildMany, delayedCall, ih]

theorem buildMany_snd {α : Type} (label : String) (argf : α → List Arg) (l : List α) :
    ∀ g, (buildMany label argf l g).2
      = (List.range l.length).map (fun k => g.length + k) := by
  induction l with
  | nil => intro g; simp [buildMany]
  | cons x xs ih =>
    intro g
    simp [buildMany, delayedCall, ih, List.range_succ_eq_map, List.map_map]
    intro a _
    omega

theorem front29_length : front29.length = 29 := rfl

theorem rolledStage_eq : rolledStage = (front29, rollIds) := by decide

theorem comparedStage_fst (pick : Nat → Fin 8 × Fin 8) :
    (comparedStage pick).1 = front29 ++ compareNodesG pick := by
  unfold comparedStage
  rw [buildMany_fst, rolledStage_eq]
  simp [compareNodesG, depsOfList_cons, depsOf_ref, depsOfList_nil]

theorem comparedStage_snd (pick : Nat → Fin 8 × Fin 8) :
    (comparedStage pick).2 = (List.range 20).map (fun k => 29 + k) := by
  unfold comparedStage
  rw [buildMany_snd, rolledStage_eq]
  simp [front29_length]

theorem etl_decomp (pick : Nat → Fin 8 × Fin 8) :
    etlGraph pick = front29 ++ (compareNodesG pick ++ [reductionNode]) := by
  unfold etlGraph buildETL delayedCall
  rw [comparedStage_fst, comparedStage_snd]
  simp only [depsOfList_cons, depsOf_coll, depsOfList_nil, List.append_nil, depsOfList_map_ref]
  simp [reductionNode, List.append_assoc]

theorem compareNodesG_length (pick : Nat → Fin 8 × Fin 8) :
    (compareNodesG pick).length = 20 := by
  simp [compareNodesG]

theorem etl_length (pick : Nat → Fin 8 × Fin 8) : (etlGraph pick).length = 50 := by
  rw [etl_decomp]
  simp [front29_length, compareNodesG_length]

theorem bestId_eq (pick : Nat → Fin 8 × Fin 8) : bestId pick = 49 := by
  unfold bestId buildETL delayedCall
  rw [comparedStage_fst]
  simp [front29_length, compareNodesG_length]

/-! ### Locating nodes in the built graph -/

theorem nodeAt_append_left :
    ∀ (l t : List Node) (i : Nat), i < l.length → nodeAt (l ++ t) i = nodeAt l i := by
  intro l
  induction l with
  | nil => intro t i h; simp at h
  | cons x xs ih =>
    intro t i h
    cases i with
    | zero => rfl
    | succ j =>
      show nodeAt (xs ++ t) j = nodeAt xs j
      exact ih t j (by simp at h; omega)

theorem nodeAt_append_right :
    ∀ (l t : List Node) (i : Nat), nodeAt (l ++ t) (l.length + i) = nodeAt t i := by
  intro l
  induction l with
  | nil => intro t i; simp [List.nil_append]
  | cons x xs ih =>
    intro t i
    have h : (x :: xs).length + i = (xs.length + i) + 1 := by simp; omega
    rw [h]
    show nodeAt (xs ++ t) (xs.length + i) = nodeAt t i
    exact ih t i

theorem nodeAt_ge : ∀ (l : List Node) (i : Nat), l.length ≤ i → nodeAt l i = Node.mk "" [] := by
  intro l
  induction l with
  | nil => intro i _; rfl
  | cons x xs ih =>
    intro i h
    cases i with
    | zero => simp at h
    | succ j =>
      show nodeAt xs j = Node.mk "" []
      exact ih j (by simp at h; omega)

theorem nodeAt_mapRange (f : Nat → Node) :
    ∀ (n k : Nat), k < n → nodeAt ((List.range n).map f) k = f k := by
  intro n
  induction n with
  | zero => intro k h; omega
  | succ m ih =>
    intro k h
    rw [List.range_succ, List.map_append]
    rcases Nat.lt_or_ge k m with hk | hk
    · rw [nodeAt_append_left _ _ _ (by simp; omega)]
      exact ih k hk
    · have hkm : k = m := by omega
      subst hkm
      have hlen : ((List.range k).map f).length = k := by simp
      have h0 := nodeAt_append_right ((List.range k).map f) (List.map f [k]) 0
      rw [hlen, Nat.add_zero] at h0
      rw [h0]
      rfl

theorem nodeAt_etl_front (pick : Nat → Fin 8 × Fin 8) (i : Nat) (h : i < 29) :
    nodeAt (etlGraph pick) i = nodeAt front29 i := by
  rw [etl_decomp]
  exact nodeAt_append_left _ _ _ (by rw [front29_length]; omega)

theorem nodeAt_etl_compare (pick : Nat → Fin 8 × Fin 8) (k : Nat) (hk : k < 20) :
    nodeAt (etlGraph pick) (29 + k)
      = Node.mk "compare"
          [List.getD rollIds ((pick k).1 : Nat) 0, List.getD rollIds ((pick k).2 : Nat) 0] := by
  rw [etl_decomp]
  have h0 := nodeAt_append_right front29 (compareNodesG pick ++ [reductionNode]) k
  rw [front29_length] at h0
  rw [h0]
  rw [nodeAt_append_left _ _ _ (by rw [compareNodesG_length]; omega)]
  unfold compareNodesG
  rw [nodeAt_mapRange _ 20 k hk]

theorem nodeAt_etl_best (pick : Nat → Fin 8 × Fin 8) :
    nodeAt (etlGraph pick) 49 = reductionNode := by
  rw [etl_decomp]
  have h0 := nodeAt_append_right front29 (compareNodesG pick ++ [reductionNode]) 20
  rw [front29_length] at h0
  rw [show (49 : Nat) = 29 + 20 from rfl, h0]
  have h1 := nodeAt_append_right (compareNodesG pick) [reductionNode] 0
  rw [compareNodesG_length, Nat.add_zero] at h1
  rw [h1]
  rfl

theorem getD_rollIds : ∀ v : Fin 8, List.getD rollIds (v : Nat) 0 = 21 + (v : Nat) := by decide

/-! ### Well-formedness: every dependency points to an earlier node -/

theorem front29_wf : ∀ i ∈ List.range 29, ∀ d ∈ (nodeAt front29 i).deps, d < i := by decide

theorem wellFormed_etl (pick : Nat → Fin 8 × Fin 8) : wellFormed (etlGraph pick) := by
  intro i d hd
  by_cases h50 : i < 50
  · by_cases h29 : i < 29
    · rw [nodeAt_etl_front pick i h29] at hd
      exact front29_wf i (List.mem_range.mpr h29) d hd
    · by_cases h49 : i < 49
      · have hk : i - 29 < 20 := by omega
        have hi : 29 + (i - 29) = i := by omega
        have hc := nodeAt_etl_compare pick (i - 29) hk
        rw [hi] at hc
        rw [hc] at hd
        have hv1 := getD_rollIds (pick (i - 29)).1
        have hv2 := getD_rollIds (pick (i - 29)).2
        have hb1 : ((pick (i - 29)).1 : Nat) < 8 := (pick (i - 29)).1.isLt
        have hb2 : ((pick (i - 29)).2 : Nat) < 8 := (pick (i - 29)).2.isLt
        simp only [Node.mk.injEq] at hd
        rcases List.mem_cons.mp hd with h | h
        · rw [h, hv1]; omega
        · rcases List.mem_cons.mp h with h' | h'
          · rw [h', hv2]; omega
          · simp at h'
      · have hi : i = 49 := by omega
        subst hi
        rw [nodeAt_etl_best] at hd
        unfold reductionNode at hd
        simp only [List.mem_map, List.mem_range] at hd
        obtain ⟨k, hk, rfl⟩ := hd
        omega
  · have hge : (etlGraph pick).length ≤ i := by rw [etl_length]; omega
    rw [nodeAt_ge _ _ hge] at hd
    simp at hd

/-! ### Reachability along dependency edges -/

theorem any_congr_mem {α : Type} (l : List α) (p q : α → Bool)
    (h : ∀ a ∈ l, p a = q a) : l.any p = l.any q := by
  induction l with
  | nil => rfl
  | cons x xs ih =>
    simp only [List.any_cons]
    rw [h x (List.mem_cons_self x xs), ih (fun a ha => h a (List.mem_cons_of_mem x ha))]

theorem reachesFuel_mono (g : List Node) :
    ∀ f f' i j, f ≤ f' → reachesFuel g f i j = true → reachesFuel g f' i j = true := by
  intro f
  induction f with
  | zero => intro f' i j _ h; simp [reachesFuel] at h
  | succ n ih =>
    intro f' i j hle h
    cases f' with
    | zero => omega
    | succ m =>
      unfold reachesFuel at h ⊢
      rw [List.any_eq_true] at h ⊢
      obtain ⟨d, hd, hp⟩ := h
      refine ⟨d, hd, ?_⟩
      rcases Bool.or_eq_true_iff.mp hp with hc | hc
      · rw [hc]; rfl
      · have := ih m d j (by omega) hc
        rw [this]
        simp

theorem reachesFuel_lt (g : List Node) (hw : wellFormed g) :
    ∀ f i j, reachesFuel g f i j = true → j < i := by
  intro f
  induction f with
  | zero => intro i j h; simp [reachesFuel] at h
  | succ n ih =>
    intro i j h
    unfold reachesFuel at h
    rw [List.any_eq_true] at h
    obtain ⟨d, hd, hp⟩ := h
    have hdi : d < i := hw i d hd
    rcases Bool.or_eq_true_iff.mp hp with hc | hc
    · have : d = j := by simpa using hc
      omega
    · have := ih d j hc
      omega

theorem reachesFuel_bound (g : List Node) (hw : wellFormed g) :
    ∀ f i j, reachesFuel g f i j = true → reachesFuel g (i + 1) i j = true := by
  intro f
  induction f with
  | zero => intro i j h; simp [reachesFuel] at h
  | succ n ih =>
    intro i j h
    unfold reachesFuel at h
    rw [List.any_eq_true] at h
    obtain ⟨d, hd, hp⟩ := h
    show reachesFuel g (i + 1) i j = true
    unfold reachesFuel
    rw [List.any_eq_true]
    refine ⟨d, hd, ?_⟩
    rcases Bool.or_eq_true_iff.mp hp with hc | hc
    · rw [hc]; rfl
    · have hdd := ih d j hc
      have hdi : d < i := hw i d hd
      have := reachesFuel_mono g (d + 1) i d j (by omega) hdd
      rw [this]
      simp

theorem reaches_of_fuel (g : List Node) (hw : wellFormed g) (f i j : Nat)
    (hi : i < g.length) (h : reachesFuel g f i j = true) : reaches g i j = true := by
  have h1 := reachesFuel_bound g hw f i j h
  exact reachesFuel_mono g (i + 1) g.length i j (by omega) h1

theorem reachesFuel_single (g : List Node) (i d : Nat) (hd : d ∈ (nodeAt g i).deps) :
    reachesFuel g 1 i d = true := by
  unfold reachesFuel
  rw [List.any_eq_true]
  exact ⟨d, hd, by simp⟩

theorem reaches_of_dep (g : List Node) (hw : wellFormed g) (i d : Nat)
    (hd : d ∈ (nodeAt g i).deps) (hi : i < g.length) : reaches g i d = true :=
  reaches_of_fuel g hw 1 i d hi (reachesFuel_single g i d hd)

theorem reaches_trans_dep (g : List Node) (hw : wellFormed g) (i d j : Nat)
    (hd : d ∈ (nodeAt g i).deps) (hr : reaches g d j = true) (hi : i < g.length) :
    reaches g i j = true := by
  have h1 : reachesFuel g (g.length + 1) i j = true := by
    unfold reachesFuel
    rw [List.any_eq_true]
    refine ⟨d, hd, ?_⟩
    have hr' : reachesFuel g g.length d j = true := hr
    rw [hr']
    simp
  exact reaches_of_fuel g hw (g.length + 1) i j hi h1

theorem reaches_snoc (g : List Node) :
    ∀ f i j d, reachesFuel g f i j = true → d ∈ (nodeAt g j).deps →
      reachesFuel g (f + 1) i d = true := by
  intro f
  induction f with
  | zero => intro i j d h _; simp [reachesFuel] at h
  | succ n ih =>
    intro i j d h hd
    unfold reachesFuel at h
    rw [List.any_eq_true] at h
    obtain ⟨d', hd', hp⟩ := h
    show reachesFuel g (n + 1 + 1) i d = true
    unfold reachesFuel
    rw [List.any_eq_true]
    refine ⟨d', hd', ?_⟩
    rcases Bool.or_eq_true_iff.mp hp with hc | hc
    · have he : d' = j := by simpa using hc
      subst he
      have h1 := reachesFuel_single g d' d hd
      have h2 := reachesFuel_mono g 1 (n + 1) d' d (by omega) h1
      rw [h2]
      simp
    · have h1 := ih d' j d hc hd
      rw [h1]
      simp

theorem reachesFuel_append (g t : List Node)
    (hcl : ∀ i, ∀ d ∈ (nodeAt g i).deps, d < g.length) :
    ∀ f i j, i < g.length → reachesFuel (g ++ t) f i j = reachesFuel g f i j := by
  intro f
  induction f with
  | zero => intro i j _; rfl
  | succ n ih =>
    intro i j hi
    unfold reachesFuel
    rw [nodeAt_append_left g t i hi]
    apply any_congr_mem
    intro d hd
    have hdg : d < g.length := hcl i d hd
    rw [ih d j hdg]

theorem front29_closed29 : ∀ i ∈ List.range 29, ∀ d ∈ (nodeAt front29 i).deps, d < 29 := by
  decide

theorem front29_closed : ∀ i, ∀ d ∈ (nodeAt front29 i).deps, d < front29.length := by
  intro i d hd
  rw [front29_length]
  by_cases h : i < 29
  · exact front29_closed29 i (List.mem_range.mpr h) d hd
  · rw [nodeAt_ge front29 i (by rw [front29_length]; omega)] at hd
    simp at hd

theorem front29_reach10 :
    ∀ i ∈ List.range 29, 11 ≤ i → reachesFuel front29 29 i 10 = true := by
  decide

theorem ref_reach (pick : Nat → Fin 8 × Fin 8) :
    ∀ i, 11 ≤ i → i < 50 → reaches (etlGraph pick) i 10 = true := by
  have hw := wellFormed_etl pick
  have hfront : ∀ i, 11 ≤ i → i < 29 → reaches (etlGraph pick) i 10 = true := by
    intro i h11 h29
    unfold reaches
    rw [etl_length, etl_decomp]
    rw [reachesFuel_append front29 _ front29_closed 50 i 10 (by rw [front29_length]; omega)]
    exact reachesFuel_mono front29 29 50 i 10 (by omega)
      (front29_reach10 i (List.mem_range.mpr h29) h11)
  have hcmp : ∀ k, k < 20 → reaches (etlGraph pick) (29 + k) 10 = true := by
    intro k hk
    have hnode := nodeAt_etl_compare pick k hk
    have hd1 : List.getD rollIds ((pick k).1 : Nat) 0 ∈ (nodeAt (etlGraph pick) (29 + k)).deps := by
      rw [hnode]
      exact List.mem_cons_self _ _
    have hv1 := getD_rollIds (pick k).1
    have hb1 : ((pick k).1 : Nat) < 8 := (pick k).1.isLt
    apply reaches_trans_dep (etlGraph pick) hw (29 + k) _ 10 hd1
    · rw [hv1]
      exact hfront _ (by omega) (by omega)
    · rw [etl_length]; omega
  intro i h11 h50
  by_cases h29 : i < 29
  · exact hfront i h11 h29
  · by_cases h49 : i < 49
    · have := hcmp (i - 29) (by omega)
      rw [show 29 + (i - 29) = i by omega] at this
      exact this
    · have hi : i = 49 := by omega
      subst hi
      have hd : (29 : Nat) ∈ (nodeAt (etlGraph pick) 49).deps := by
        rw [nodeAt_etl_best]
        unfold reductionNode
        simp only [List.mem_map, List.mem_range]
        exact ⟨0, by omega, by omega⟩
      exact reaches_trans_dep (etlGraph pick) hw 49 29 10 hd (hcmp 0 (by omega))
        (by rw [etl_length]; omega)

/-! ### Schedules: positions, counts, dependency order -/

theorem posOf_cons_eq (a x : Nat) (l : List Nat) (h : x = a) : posOf a (x :: l) = 0 := by
  simp [posOf, h]

theorem posOf_cons_ne (a x : Nat) (l : List Nat) (h : x ≠ a) :
    posOf a (x :: l) = posOf a l + 1 := by
  simp [posOf, h]

theorem depsDone_nil (g : List Node) (done : List Nat) : depsDone g done [] = true := rfl

theorem depsDone_cons (g : List Node) (done : List Nat) (x : Nat) (rest : List Nat) :
    depsDone g done (x :: rest)
      = (decide (∀ d ∈ (nodeAt g x).deps, d ∈ done) && depsDone g (x :: done) rest) := rfl

theorem posOf_lt_length (a : Nat) : ∀ l : List Nat, a ∈ l → posOf a l < l.length := by
  intro l
  induction l with
  | nil => intro h; simp at h
  | cons x xs ih =>
    intro h
    unfold posOf
    by_cases hx : x = a
    · simp [hx]
    · rw [if_neg hx]
      have ha : a ∈ xs := by
        rcases List.mem_cons.mp h with h' | h'
        · exact absurd h'.symm hx
        · exact h'
      have := ih ha
      simp
      omega

theorem posOf_append_left (a : Nat) : ∀ l t : List Nat, a ∈ l →
    posOf a (l ++ t) = posOf a l := by
  intro l
  induction l with
  | nil => intro t h; simp at h
  | cons x xs ih =>
    intro t h
    show posOf a (x :: (xs ++ t)) = posOf a (x :: xs)
    unfold posOf
    by_cases hx : x = a
    · simp [hx]
    · rw [if_neg hx, if_neg hx]
      have ha : a ∈ xs := by
        rcases List.mem_cons.mp h with h' | h'
        · exact absurd h'.symm hx
        · exact h'
      rw [ih t ha]

theorem posOf_append_right (a : Nat) : ∀ l t : List Nat, a ∉ l →
    posOf a (l ++ t) = l.length + posOf a t := by
  intro l
  induction l with
  | nil => intro t _; simp
  | cons x xs ih =>
    intro t h
    have hx : x ≠ a := fun he => h (he ▸ List.mem_cons_self x xs)
    have ha : a ∉ xs := fun he => h (List.mem_cons_of_mem x he)
    rw [List.cons_append, posOf_cons_ne a x _ hx, ih t ha]
    simp
    omega

theorem count_range_eq_one : ∀ n i : Nat, i < n → List.count i (List.range n) = 1 := by
  intro n
  induction n with
  | zero => intro i h; omega
  | succ m ih =>
    intro i h
    rw [List.range_succ, List.count_append]
    by_cases hi : i < m
    · rw [ih i hi]
      have hne : ¬ (m == i) = true := by simp; omega
      simp [List.count_singleton, hne]
    · have he : i = m := by omega
      subst he
      rw [List.count_eq_zero.mpr (by simp)]
      simp [List.count_singleton]

theorem depsDone_congr (g : List Node) :
    ∀ (l d1 d2 : List Nat), (∀ x, x ∈ d1 ↔ x ∈ d2) →
      depsDone g d1 l = depsDone g d2 l := by
  intro l
  induction l with
  | nil => intro d1 d2 _; rfl
  | cons x xs ih =>
    intro d1 d2 h
    unfold depsDone
    have h1 : decide (∀ d ∈ (nodeAt g x).deps, d ∈ d1)
        = decide (∀ d ∈ (nodeAt g x).deps, d ∈ d2) := by
      rw [decide_eq_decide]
      constructor
      · intro hh d hd; exact (h d).mp (hh d hd)
      · intro hh d hd; exact (h d).mpr (hh d hd)
    rw [h1, ih (x :: d1) (x :: d2) (by intro y; simp [List.mem_cons, h y])]

theorem depsDone_append (g : List Node) :
    ∀ (l1 l2 done : List Nat),
      depsDone g done (l1 ++ l2)
        = (depsDone g done l1 && depsDone g (l1.reverse ++ done) l2) := by
  intro l1
  induction l1 with
  | nil => intro l2 done; simp [depsDone]
  | cons x xs ih =>
    intro l2 done
    rw [List.cons_append, depsDone_cons, ih l2 (x :: done),
      depsDone_congr g l2 (xs.reverse ++ x :: done) ((x :: xs).reverse ++ done)
        (by intro y; simp [List.mem_append, List.mem_cons, List.mem_reverse]),
      depsDone_cons]
    simp [Bool.and_assoc]

theorem depsDone_sorted (g : List Node) :
    ∀ (l done : List Nat), List.Pairwise (· < ·) l →
      (∀ i ∈ l, ∀ d ∈ (nodeAt g i).deps, d ∈ done ∨ (d ∈ l ∧ d < i)) →
      depsDone g done l = true := by
  intro l
  induction l with
  | nil => intro done _ _; rfl
  | cons x xs ih =>
    intro done hp hc
    rcases List.pairwise_cons.mp hp with ⟨hx, hxs⟩
    unfold depsDone
    rw [Bool.and_eq_true]
    constructor
    · rw [decide_eq_true_eq]
      intro d hd
      rcases hc x (List.mem_cons_self x xs) d hd with hdone | ⟨hmem, hlt⟩
      · exact hdone
      · rcases List.mem_cons.mp hmem with he | he
        · omega
        · have := hx d he
          omega
    · apply ih (x :: done) hxs
      intro i hi d hd
      rcases hc i (List.mem_cons_of_mem x hi) d hd with hdone | ⟨hmem, hlt⟩
      · exact Or.inl (List.mem_cons_of_mem x hdone)
      · rcases List.mem_cons.mp hmem with he | he
        · exact Or.inl (he ▸ List.mem_cons_self x done)
        · exact Or.inr ⟨he, hlt⟩

theorem validSchedule_range (g : List Node) (hw : wellFormed g) :
    ValidSchedule g (List.range g.length) := by
  refine ⟨?_, ?_, ?_⟩
  · intro i hi
    exact count_range_eq_one _ _ (List.mem_range.mp hi)
  · intro i hi
    exact List.mem_range.mp hi
  · apply depsDone_sorted g _ _ (List.pairwise_lt_range g.length)
    intro i hi d hd
    have hii : i < g.length := List.mem_range.mp hi
    have hdi : d < i := hw i d hd
    exact Or.inr ⟨List.mem_range.mpr (by omega), hdi⟩

theorem depsDone_posOf (g : List Node) :
    ∀ (ord done : List Nat), depsDone g done ord = true →
      ∀ i ∈ ord, ∀ d ∈ (nodeAt g i).deps,
        d ∈ done ∨ (d ∈ ord ∧ posOf d ord < posOf i ord) := by
  intro ord
  induction ord with
  | nil => intro done _ i hi; simp at hi
  | cons x rest ih =>
    intro done h i hi d hd
    rw [depsDone, Bool.and_eq_true] at h
    obtain ⟨h1, h2⟩ := h
    rw [decide_eq_true_eq] at h1
    by_cases hix : i = x
    · subst hix
      exact Or.inl (h1 d hd)
    · have hir : i ∈ rest := by
        rcases List.mem_cons.mp hi with he | he
        · exact absurd he hix
        · exact he
      have hpos_i : posOf i (x :: rest) = posOf i rest + 1 :=
        posOf_cons_ne i x rest (fun he => hix he.symm)
      rcases ih (x :: done) h2 i hir d hd with hdone | ⟨hdr, hlt⟩
      · rcases List.mem_cons.mp hdone with hdx | hdd
        · refine Or.inr ⟨hdx ▸ List.mem_cons_self x rest, ?_⟩
          have : posOf d (x :: rest) = 0 := posOf_cons_eq d x rest hdx.symm
          omega
        · exact Or.inl hdd
      · refine Or.inr ⟨List.mem_cons_of_mem x hdr, ?_⟩
        by_cases hdx : d = x
        · have : posOf d (x :: rest) = 0 := posOf_cons_eq d x rest hdx.symm
          omega
        · have : posOf d (x :: rest) = posOf d rest + 1 :=
            posOf_cons_ne d x rest (fun he => hdx he.symm)
          omega

theorem valid_dep_posOf (g : List Node) (ord : List Nat) (hv : ValidSchedule g ord)
    (i d : Nat) (hi : i ∈ ord) (hd : d ∈ (nodeAt g i).deps) :
    d ∈ ord ∧ posOf d ord < posOf i ord := by
  rcases depsDone_posOf g ord [] hv.2.2 i hi d hd with h | h
  · simp at h
  · exact h

theorem valid_mem (g : List Node) (ord : List Nat) (hv : ValidSchedule g ord)
    (i : Nat) (hi : i < g.length) : i ∈ ord := by
  have h := hv.1 i (List.mem_range.mpr hi)
  exact List.count_pos_iff.mp (by omega)

theorem valid_count_le_one (g : List Node) (ord : List Nat) (hv : ValidSchedule g ord)
    (i : Nat) : List.count i ord ≤ 1 := by
  by_cases hi : i < g.length
  · rw [hv.1 i (List.mem_range.mpr hi)]
  · have hnm : i ∉ ord := fun hmem => hi (hv.2.1 i hmem)
    rw [List.count_eq_zero.mpr hnm]
    omega

theorem valid_reach_posOf (g : List Node) (ord : List Nat) (hv : ValidSchedule g ord)
    (hw : wellFormed g) :
    ∀ f i j, reachesFuel g f i j = true → i ∈ ord → posOf j ord < posOf i ord := by
  intro f
  induction f with
  | zero => intro i j h; simp [reachesFuel] at h
  | succ n ih =>
    intro i j h hi
    unfold reachesFuel at h
    rw [List.any_eq_true] at h
    obtain ⟨d, hd, hp⟩ := h
    have hord := valid_dep_posOf g ord hv i d hi hd
    rcases Bool.or_eq_true_iff.mp hp with hc | hc
    · have he : d = j := by simpa using hc
      subst he
      exact hord.2
    · have := ih d j hc hord.1
      omega

/-! ### The separated schedule: everything the target needs first -/

theorem mem_down_of_dep (g : List Node) (hw : wellFormed g) (b i d : Nat) (hb : b < g.length)
    (hdown : downClosure g b i = true) (hd : d ∈ (nodeAt g i).deps) :
    downClosure g b d = true := by
  unfold downClosure at hdown ⊢
  rcases Bool.or_eq_true_iff.mp hdown with hc | hc
  · have he : i = b := by simpa using hc
    subst he
    have := reaches_of_dep g hw i d hd hb
    rw [this]
    simp
  · have h1 := reaches_snoc g g.length b i d hc hd
    have h2 := reaches_of_fuel g hw (g.length + 1) b d hb h1
    rw [h2]
    simp

theorem sep_valid (g : List Node) (b : Nat) (hw : wellFormed g) (hb : b < g.length) :
    ValidSchedule g (sepSchedule g b) := by
  refine ⟨?_, ?_, ?_⟩
  · intro i hi
    have hilt : i < g.length := List.mem_range.mp hi
    unfold sepSchedule
    rw [List.count_append]
    by_cases hdc : downClosure g b i = true
    · rw [List.count_filter hdc, count_range_eq_one _ _ hilt]
      have hnm : i ∉ (List.range g.length).filter (fun j => !downClosure g b j) := by
        intro hmem
        have hp := (List.mem_filter.mp hmem).2
        rw [hdc] at hp
        simp at hp
      rw [List.count_eq_zero.mpr hnm]
    · have hfd : downClosure g b i = false := by
        cases hv : downClosure g b i
        · rfl
        · exact absurd hv hdc
      have hd' : (fun j => !downClosure g b j) i = true := by simp [hfd]
      rw [@List.count_filter Nat _ _ (fun j => !downClosure g b j) i (List.range g.length) hd',
        count_range_eq_one _ _ hilt]
      have hnm : i ∉ (List.range g.length).filter (downClosure g b) := by
        intro hmem
        exact hdc (List.mem_filter.mp hmem).2
      rw [List.count_eq_zero.mpr hnm]
  · intro i hi
    unfold sepSchedule at hi
    rcases List.mem_append.mp hi with h | h <;>
      exact List.mem_range.mp (List.mem_filter.mp h).1
  · unfold sepSchedule
    rw [depsDone_append, Bool.and_eq_true]
    constructor
    · apply depsDone_sorted
      · exact List.Pairwise.filter _ (List.pairwise_lt_range g.length)
      · intro i hi d hd
        rcases List.mem_filter.mp hi with ⟨hir, hdc⟩
        have hilt := List.mem_range.mp hir
        have hdlt : d < i := hw i d hd
        exact Or.inr ⟨List.mem_filter.mpr ⟨List.mem_range.mpr (by omega),
          mem_down_of_dep g hw b i d hb hdc hd⟩, hdlt⟩
    · rw [depsDone_congr g _
        (((List.range g.length).filter (downClosure g b)).reverse ++ [])
        ((List.range g.length).filter (downClosure g b))
        (by intro y; simp [List.mem_reverse])]
      apply depsDone_sorted
      · exact List.Pairwise.filter _ (List.pairwise_lt_range g.length)
      · intro i hi d hd
        rcases List.mem_filter.mp hi with ⟨hir, _⟩
        have hilt := List.mem_range.mp hir
        have hdlt : d < i := hw i d hd
        by_cases hdd : downClosure g b d = true
        · exact Or.inl (List.mem_filter.mpr ⟨List.mem_range.mpr (by omega), hdd⟩)
        · have hfd : downClosure g b d = false := by
            cases hv : downClosure g b d
            · rfl
            · exact absurd hv hdd
          exact Or.inr ⟨List.mem_filter.mpr ⟨List.mem_range.mpr (by omega),
            by simp [hfd]⟩, hdlt⟩

theorem sep_pos (g : List Node) (b a : Nat) (hb : b < g.length)
    (hna : downClosure g b a = false) :
    posOf b (sepSchedule g b) < posOf a (sepSchedule g b) := by
  have hbp1 : b ∈ (List.range g.length).filter (downClosure g b) :=
    List.mem_filter.mpr ⟨List.mem_range.mpr hb, by unfold downClosure; simp⟩
  have hap1 : a ∉ (List.range g.length).filter (downClosure g b) := by
    intro h
    have hp := (List.mem_filter.mp h).2
    rw [hna] at hp
    simp at hp
  have h1 := posOf_append_left b
    ((List.range g.length).filter (downClosure g b))
    ((List.range g.length).filter (fun j => !downClosure g b j)) hbp1
  have h2 := posOf_append_right a
    ((List.range g.length).filter (downClosure g b))
    ((List.range g.length).filter (fun j => !downClosure g b j)) hap1
  have h3 := posOf_lt_length b _ hbp1
  unfold sepSchedule
  rw [h1, h2]
  omega

/-! ### Evaluating the graph: every node's task body returns None -/

theorem applyTask_none (label : String) (vals : List (Option String)) :
    applyTask label vals = none := by
  unfold applyTask
  split <;> rfl

theorem evalArgs_all (g : List Node) (fuel : Nat) :
    ∀ l : List Nat, (∀ d ∈ l, evalFuel g fuel d = some none) →
      evalArgs g fuel l = some (l.map (fun _ => (none : Option String))) := by
  intro l
  induction l with
  | nil => intro _; simp [evalArgs]
  | cons d ds ih =>
    intro h
    simp only [evalArgs]
    rw [h d (List.mem_cons_self d ds), ih (fun x hx => h x (List.mem_cons_of_mem d hx))]
    simp

theorem evalFuel_wf (g : List Node) (hw : wellFormed g) :
    ∀ fuel i, i < fuel → evalFuel g fuel i = some none := by
  intro fuel
  induction fuel with
  | zero => intro i h; omega
  | succ n ih =>
    intro i h
    have hdeps : ∀ d ∈ (nodeAt g i).deps, evalFuel g n d = some none := by
      intro d hd
      have := hw i d hd
      exact ih d (by omega)
    simp only [evalFuel]
    rw [evalArgs_all g n _ hdeps]
    exact congrArg some (applyTask_none _ _)

/-! ### The dependencies of a deferred call are the deferred values among
its arguments -/

mutual

theorem mem_depsOf (x : Nat) : ∀ a : Arg, x ∈ depsOf a ↔ OccursIn x a
  | .str s => by
    simp only [depsOf]
    constructor
    · intro h; simp at h
    · intro h; cases h
  | .ref i => by
    simp only [depsOf, List.mem_singleton]
    constructor
    · intro h; rw [h]; exact OccursIn.here i
    · intro h; cases h; rfl
  | .coll l => by
    simp only [depsOf]
    rw [mem_depsOfList x l]
    constructor
    · rintro ⟨a, ha, hx⟩
      exact OccursIn.inColl ha hx
    · intro h
      cases h with
      | inColl ha hx => exact ⟨_, ha, hx⟩

theorem mem_depsOfList (x : Nat) : ∀ l : List Arg, x ∈ depsOfList l ↔ ∃ a ∈ l, OccursIn x a
  | [] => by
    simp only [depsOfList]
    constructor
    · intro h; simp at h
    · rintro ⟨a, ha, _⟩; simp at ha
  | a :: l => by
    simp only [depsOfList, List.mem_append]
    rw [mem_depsOf x a, mem_depsOfList x l]
    constructor
    · rintro (h | ⟨b, hb, hx⟩)
      · exact ⟨a, List.mem_cons_self a l, h⟩
      · exact ⟨b, List.mem_cons_of_mem a hb, hx⟩
    · rintro ⟨b, hb, hx⟩
      rcases List.mem_cons.mp hb with he | he
      · exact Or.inl (he ▸ hx)
      · exact Or.inr ⟨b, he, hx⟩

end

/-! ### Remaining helper facts -/

theorem front29_roll : ∀ k : Fin 8,
    nodeAt front29 (21 + (k : Nat))
      = Node.mk "roll" [11 + (k : Nat), 12 + (k : Nat), 13 + (k : Nat)] := by
  decide

theorem add21_mem_rollIds : ∀ v : Fin 8, 21 + (v : Nat) ∈ rollIds := by decide

/-! ### The claims -/

/-- C1: every graph the notebook builds by composing the deferred task
wrappers through its loops and comprehensions is acyclic: no node depends,
directly or transitively, on its own result, for every choice of the random
compare pairs. -/
theorem claim_C1_acyclic (pick : Nat → Fin 8 × Fin 8) (i : Nat) :
    reaches (etlGraph pick) i i = false := by
  cases hv : reaches (etlGraph pick) i i
  · rfl
  · have := reachesFuel_lt (etlGraph pick) (wellFormed_etl pick)
      ((etlGraph pick).length) i i hv
    omega

/-- C2: calling the deferred wrapper executes nothing: it only appends one new
node (all earlier nodes are untouched), returns a fresh deferred value, and
the new node's dependency set is exactly the set of deferred values occurring
among the arguments, recursively including inside ordinary containers. -/
theorem claim_C2_wrapper (g : List Node) (label : String) (args : List Arg) :
    (delayedCall label args g).2 = g.length ∧
    (delayedCall label args g).1 = g ++ [Node.mk label (depsOfList args)] ∧
    (∀ j, j < g.length → nodeAt (delayedCall label args g).1 j = nodeAt g j) ∧
    (∀ x, x ∈ (nodeAt (delayedCall label args g).1 g.length).deps
      ↔ ∃ a ∈ args, OccursIn x a) := by
  refine ⟨rfl, rfl, ?_, ?_⟩
  · intro j hj
    exact nodeAt_append_left g _ j hj
  · intro x
    have h0 := nodeAt_append_right g [Node.mk label (depsOfList args)] 0
    rw [Nat.add_zero] at h0
    show x ∈ (nodeAt (g ++ [Node.mk label (depsOfList args)]) g.length).deps ↔ _
    rw [h0]
    exact mem_depsOfList x args

/-- Witness for C2: a concrete deferred call on a one-node graph. -/
theorem claim_C2_wrapper_witness :
    nodeAt (delayedCall "process" [Arg.ref 0, Arg.str "x", Arg.coll [Arg.ref 3]]
      [Node.mk "load" []]).1 0 = Node.mk "load" [] ∧
    (3 ∈ (nodeAt (delayedCall "process" [Arg.ref 0, Arg.str "x", Arg.coll [Arg.ref 3]]
      [Node.mk "load" []]).1 1).deps
      ↔ ∃ a ∈ [Arg.ref 0, Arg.str "x", Arg.coll [Arg.ref 3]], OccursIn 3 a) := by
  have h := claim_C2_wrapper [Node.mk "load" []] "process"
    [Arg.ref 0, Arg.str "x", Arg.coll [Arg.ref 3]]
  exact ⟨h.2.2.1 0 (by decide), h.2.2.2 3⟩

/-- C3: the roll stage over the ten processed items with a sliding window of
three yields exactly eight roll nodes (10 - 2), and the roll node at position
`k` depends exactly on the processed nodes at positions `k`, `k+1`, `k+2`
(graph indices 11+k, 12+k, 13+k). -/
theorem claim_C3_roll_stage (pick : Nat → Fin 8 × Fin 8) :
    ((etlGraph pick).filter (fun n => n.label == "roll")).length = 8 ∧
    ∀ k : Fin 8, nodeAt (etlGraph pick) (21 + (k : Nat))
      = Node.mk "roll" [11 + (k : Nat), 12 + (k : Nat), 13 + (k : Nat)] := by
  constructor
  · rw [etl_decomp, List.filter_append, List.filter_append,
      List.length_append, List.length_append]
    have h1 : (front29.filter (fun n => n.label == "roll")).length = 8 := by decide
    have h2 : (compareNodesG pick).filter (fun n => n.label == "roll") = [] := by
      rw [List.filter_eq_nil_iff]
      intro a ha
      unfold compareNodesG at ha
      rcases List.mem_map.mp ha with ⟨k, _, he⟩
      rw [← he]
      simp
    have h3 : ([reductionNode].filter (fun n => n.label == "roll")) = [] := by decide
    rw [h1, h2, h3]
    rfl
  · intro k
    have hk : (k : Nat) < 8 := k.isLt
    rw [nodeAt_etl_front pick _ (by omega)]
    exact front29_roll k

/-- C4: the compare stage yields exactly twenty compare nodes; the node built
in iteration `k` depends exactly on the two sampled roll nodes, both of which
are roll-node indices; and the sampling may repeat a roll node across pairs
and within one pair (with the constant policy, compare nodes 29 and 30 both
depend on roll node 21 twice). -/
theorem claim_C4_compare_stage (pick : Nat → Fin 8 × Fin 8) :
    ((etlGraph pick).filter (fun n => n.label == "compare")).length = 20 ∧
    (∀ k : Fin 20,
      (nodeAt (etlGraph pick) (29 + (k : Nat))).deps
        = [21 + ((pick (k : Nat)).1 : Nat), 21 + ((pick (k : Nat)).2 : Nat)] ∧
      21 + ((pick (k : Nat)).1 : Nat) ∈ rollIds ∧
      21 + ((pick (k : Nat)).2 : Nat) ∈ rollIds) ∧
    (∀ r : Fin 8, (nodeAt (etlGraph pick) (21 + (r : Nat))).label = "roll") ∧
    (nodeAt (etlGraph constPick) 29).deps = [21, 21] ∧
    (nodeAt (etlGraph constPick) 30).deps = [21, 21] := by
  refine ⟨?_, ?_, ?_, ?_, ?_⟩
  · rw [etl_decomp, List.filter_append, List.filter_append,
      List.length_append, List.length_append]
    have h1 : (front29.filter (fun n => n.label == "compare")) = [] := by decide
    have h2 : (compareNodesG pick).filter (fun n => n.label == "compare")
        = compareNodesG pick := by
      rw [List.filter_eq_self]
      intro a ha
      unfold compareNodesG at ha
      rcases List.mem_map.mp ha with ⟨k, _, he⟩
      rw [← he]
      simp
    have h3 : ([reductionNode].filter (fun n => n.label == "compare")) = [] := by decide
    rw [h1, h2, h3, compareNodesG_length]
    rfl
  · intro k
    have hnode := nodeAt_etl_compare pick (k : Nat) k.isLt
    rw [hnode, getD_rollIds (pick (k : Nat)).1, getD_rollIds (pick (k : Nat)).2]
    exact ⟨rfl, add21_mem_rollIds _, add21_mem_rollIds _⟩
  · intro r
    have hr : (r : Nat) < 8 := r.isLt
    rw [nodeAt_etl_front pick _ (by omega), front29_roll r]
  · have h := nodeAt_etl_compare constPick 0 (by omega)
    have h' : nodeAt (etlGraph constPick) 29
        = Node.mk "compare" [List.getD rollIds ((constPick 0).1 : Nat) 0,
            List.getD rollIds ((constPick 0).2 : Nat) 0] := h
    rw [h']
    decide
  · have h := nodeAt_etl_compare constPick 1 (by omega)
    have h' : nodeAt (etlGraph constPick) 30
        = Node.mk "compare" [List.getD rollIds ((constPick 1).1 : Nat) 0,
            List.getD rollIds ((constPick 1).2 : Nat) 0] := h
    rw [h']
    decide

/-- C5: the single reduction node depends on exactly the twenty compare nodes,
and in any one submission (valid schedule) it executes exactly once, only
after every compare node; no node executes more than once per submission. -/
theorem claim_C5_reduction (pick : Nat → Fin 8 × Fin 8) :
    (nodeAt (etlGraph pick) 49).deps.length = 20 ∧
    ∀ ord : List Nat, ValidSchedule (etlGraph pick) ord →
      List.count 49 ord = 1 ∧
      (∀ k : Fin 20, posOf (29 + (k : Nat)) ord < posOf 49 ord) ∧
      (∀ i : Nat, List.count i ord ≤ 1) := by
  constructor
  · rw [nodeAt_etl_best]
    unfold reductionNode
    simp
  · intro ord hv
    refine ⟨hv.1 49 (List.mem_range.mpr (by rw [etl_length]; omega)), ?_,
      fun i => valid_count_le_one _ _ hv i⟩
    intro k
    have hmem : (49 : Nat) ∈ ord := valid_mem _ _ hv 49 (by rw [etl_length]; omega)
    have hd : 29 + (k : Nat) ∈ (nodeAt (etlGraph pick) 49).deps := by
      rw [nodeAt_etl_best]
      unfold reductionNode
      simp only [List.mem_map, List.mem_range]
      exact ⟨(k : Nat), k.isLt, rfl⟩
    exact (valid_dep_posOf _ _ hv 49 _ hmem hd).2

/-- Witness for C5: the index-order schedule of the constant-policy graph. -/
theorem claim_C5_reduction_witness :
    List.count 49 (List.range 50) = 1 ∧
    posOf 29 (List.range 50) < posOf 49 (List.range 50) := by
  have hv : ValidSchedule (etlGraph constPick) (List.range 50) := by
    have h := validSchedule_range (etlGraph constPick) (wellFormed_etl constPick)
    rw [etl_length] at h
    exact h
  have h2 := (claim_C5_reduction constPick).2 (List.range 50) hv
  refine ⟨h2.1, ?_⟩
  have h3 := h2.2.1 (0 : Fin 20)
  simpa using h3

/-- C6: in every valid schedule a node starts only after each of its
dependencies, and for any two distinct nodes with no dependency path in
either direction there is a valid schedule running the second before the
first, so execution never requires one sibling to finish before the other. -/
theorem claim_C6_ordering (pick : Nat → Fin 8 × Fin 8) :
    (∀ ord : List Nat, ValidSchedule (etlGraph pick) ord →
      ∀ i ∈ ord, ∀ d ∈ (nodeAt (etlGraph pick) i).deps, posOf d ord < posOf i ord) ∧
    (∀ a b : Nat, a < 50 → b < 50 → a ≠ b →
      reaches (etlGraph pick) a b = false → reaches (etlGraph pick) b a = false →
      ∃ ord : List Nat, ValidSchedule (etlGraph pick) ord ∧ posOf b ord < posOf a ord) := by
  constructor
  · intro ord hv i hi d hd
    exact (valid_dep_posOf _ _ hv i d hi hd).2
  · intro a b ha hb hne hab hba
    refine ⟨sepSchedule (etlGraph pick) b,
      sep_valid _ _ (wellFormed_etl pick) (by rw [etl_length]; omega), ?_⟩
    apply sep_pos _ _ _ (by rw [etl_length]; omega)
    unfold downClosure
    rw [hba]
    simp [hne]

/-- Witness for C6: the two loader nodes 0 and 1 have no path between them,
and some valid schedule runs node 1 first. -/
theorem claim_C6_ordering_witness :
    ∃ ord : List Nat, ValidSchedule (etlGraph constPick) ord ∧
      posOf 1 ord < posOf 0 ord := by
  exact (claim_C6_ordering constPick).2 0 1 (by omega) (by omega) (by omega)
    (by decide) (by decide)

/-- C7: when the task of node `f` fails with error `e`, every deferred value
that transitively depends on `f` (and `f` itself) surfaces exactly the
originating error `e` when awaited, while every node with no dependency path
to `f` still completes; in particular a failure of the reference loader
(node 10) fails every process, roll, compare, and reduction node. -/
theorem claim_C7_failure (pick : Nat → Fin 8 × Fin 8) (f : Nat) (e : String) :
    (∀ i, reaches (etlGraph pick) i f = true →
      awaitAfterFailure (etlGraph pick) f e i = Except.error e) ∧
    (∀ i, i ≠ f → reaches (etlGraph pick) i f = false →
      awaitAfterFailure (etlGraph pick) f e i = Except.ok ()) ∧
    awaitAfterFailure (etlGraph pick) f e f = Except.error e ∧
    (∀ i, 11 ≤ i → i < 50 →
      awaitAfterFailure (etlGraph pick) 10 e i = Except.error e) := by
  refine ⟨?_, ?_, ?_, ?_⟩
  · intro i h
    unfold awaitAfterFailure
    rw [if_pos (Or.inr h)]
  · intro i hne hf
    have hn : ¬ (i = f ∨ reaches (etlGraph pick) i f = true) := by
      rintro (h | h)
      · exact hne h
      · rw [hf] at h
        simp at h
    unfold awaitAfterFailure
    rw [if_neg hn]
  · unfold awaitAfterFailure
    rw [if_pos (Or.inl rfl)]
  · intro i h11 h50
    unfold awaitAfterFailure
    rw [if_pos (Or.inr (ref_reach pick i h11 h50))]

/-- Witness for C7: the failure of loader 0 fails the process node 11 but the
sibling loader 1 completes. -/
theorem claim_C7_failure_witness :
    awaitAfterFailure (etlGraph constPick) 0 "boom" 11 = Except.error "boom" ∧
    awaitAfterFailure (etlGraph constPick) 0 "boom" 1 = Except.ok () := by
  have h := claim_C7_failure constPick 0 "boom"
  exact ⟨h.1 11 (by decide), h.2.1 1 (by omega) (by decide)⟩

/-- C8: submitting the identical already-built graph twice re-executes every
node — across two valid schedules each node runs exactly twice, no result is
reused — and both submissions execute the same node set of the unchanged
graph. -/
theorem claim_C8_resubmit (pick : Nat → Fin 8 × Fin 8) (ord1 ord2 : List Nat)
    (h1 : ValidSchedule (etlGraph pick) ord1)
    (h2 : ValidSchedule (etlGraph pick) ord2) :
    (∀ i, i < 50 → List.count i (ord1 ++ ord2) = 2) ∧
    (∀ i, i ∈ ord1 ↔ i ∈ ord2) := by
  constructor
  · intro i hi
    rw [List.count_append]
    have e1 := h1.1 i (List.mem_range.mpr (by rw [etl_length]; omega))
    have e2 := h2.1 i (List.mem_range.mpr (by rw [etl_length]; omega))
    omega
  · intro i
    constructor
    · intro hm
      exact valid_mem _ _ h2 i (h1.2.1 i hm)
    · intro hm
      exact valid_mem _ _ h1 i (h2.2.1 i hm)

/-- Witness for C8: two submissions of the constant-policy graph in index
order run node 0 twice. -/
theorem claim_C8_resubmit_witness :
    List.count 0 (List.range 50 ++ List.range 50) = 2 := by
  have hv : ValidSchedule (etlGraph constPick) (List.range 50) := by
    have h := validSchedule_range (etlGraph constPick) (wellFormed_etl constPick)
    rw [etl_length] at h
    exact h
  exact (claim_C8_resubmit constPick (List.range 50) (List.range 50) hv hv).1 0 (by omega)

/-- C9: every task function body returns `None` for every input, so awaiting
the terminal future (the evaluated reduction node) yields `None`, for every
choice of the random compare pairs; the loaders' results are independent of
their address arguments by definition. -/
theorem claim_C9_all_none (pick : Nat → Fin 8 × Fin 8) :
    (∀ a, load a = none) ∧ (∀ a, load_from_sql a = none) ∧
    (∀ x y, process x y = none) ∧ (∀ a b c, roll a b c = none) ∧
    (∀ a b, compare a b = none) ∧ (∀ s, reduction s = none) ∧
    evalValue (etlGraph pick) (bestId pick) = some none := by
  refine ⟨fun _ => rfl, fun _ => rfl, fun _ _ => rfl, fun _ _ _ => rfl,
    fun _ _ => rfl, fun _ => rfl, ?_⟩
  exact evalFuel_wf (etlGraph pick) (wellFormed_etl pick) (bestId pick + 1)
    (bestId pick) (by omega)

/-- C10: the reference node produced by `load_from_sql` (index 10) is a
transitive dependency of every process, roll, and compare node and of the
terminal reduction node (all indices 11 to 49), so in every valid schedule it
runs before each of them. -/
theorem claim_C10_reference (pick : Nat → Fin 8 × Fin 8) (i : Nat)
    (h11 : 11 ≤ i) (h50 : i < 50) :
    reaches (etlGraph pick) i 10 = true ∧
    ∀ ord : List Nat, ValidSchedule (etlGraph pick) ord →
      posOf 10 ord < posOf i ord := by
  constructor
  · exact ref_reach pick i h11 h50
  · intro ord hv
    have hmem : i ∈ ord := valid_mem _ _ hv i (by rw [etl_length]; omega)
    exact valid_reach_posOf (etlGraph pick) ord hv (wellFormed_etl pick)
      ((etlGraph pick).length) i 10 (ref_reach pick i h11 h50) hmem

/-- Witness for C10: the terminal reduction node transitively depends on the
reference loader, which precedes it in the index-order schedule. -/
theorem claim_C10_reference_witness :
    reaches (etlGraph constPick) 49 10 = true ∧
    posOf 10 (List.range 50) < posOf 49 (List.range 50) := by
  have hv : ValidSchedule (etlGraph constPick) (List.range 50) := by
    have h := validSchedule_range (etlGraph constPick) (wellFormed_etl constPick)
    rw [etl_length] at h
    exact h
  have h := claim_C10_reference constPick 49 (by omega) (by omega)
  exact ⟨h.1, h.2 (List.range 50) hv⟩

end CustomEtl
